import Mathlib

/-!
Shallow embedding of `nemo/collections/tts/modules/submodules.py`.

Tensors are modelled as total functions from (batch, channel, time) indices
to a scalar type `α`; indices outside a tensor's shape carry junk values that
no theorem depends on.  Shapes are carried separately as explicit parameters
(and, for the WaveNet shape claims, by a small shape semantics of the torch
operations used).  The opaque numeric kernels of the framework (`exp`,
`tanh`, `sigmoid`, `log`, `sqrt`) are passed as function parameters so that
every definition stays computable; theorems instantiate them with the real
functions (`Real.exp`, …).  Exact arithmetic claims are stated over `ℚ`.
-/

set_option maxHeartbeats 1000000

/-- `torch.clamp(x, 0, 1)`. -/
def clamp01 {α : Type} [LinearOrderedField α] (x : α) : α := min (max x 0) 1

/-- The `1e-6` constant of `PartialConv1d.calculate_mask` (mixed-precision
epsilon), exact. -/
def eps6 {α : Type} [LinearOrderedField α] : α := 1 / 1000000

/-- `F.conv1d` on one batch element, `groups=1`, zero padding: `x` is a
(channel, time) slice of length `L` with `cin` channels, `w` the
(out-channel, in-channel, tap) weight, `b` the per-out-channel bias. -/
def conv1d {α : Type} [LinearOrderedField α] (L cin k stride pad dil : ℕ)
    (w : ℕ → ℕ → ℕ → α) (b : ℕ → α) (x : ℕ → ℕ → α) : ℕ → ℕ → α :=
  fun co t => b co + ∑ ci ∈ Finset.range cin, ∑ j ∈ Finset.range k,
    w co ci j *
      (if pad ≤ t * stride + j * dil ∧ t * stride + j * dil < L + pad
        then x ci (t * stride + j * dil - pad) else 0)

/-- `F.conv1d` over a batch of inputs. -/
def conv1dB {α : Type} [LinearOrderedField α] (L cin k stride pad dil : ℕ)
    (w : ℕ → ℕ → ℕ → α) (b : ℕ → α) (x : ℕ → ℕ → ℕ → α) : ℕ → ℕ → ℕ → α :=
  fun bch => conv1d L cin k stride pad dil w b (x bch)

/-- The time length of a `Conv1d` output (the PyTorch formula
`floor((L + 2p - d(k-1) - 1)/s) + 1`). -/
def convOutLen (L k stride pad dil : ℕ) : ℕ :=
  (L + 2 * pad - (dil * (k - 1) + 1)) / stride + 1

/-- A bias tensor that may be absent (`bias=None`): absent contributes 0. -/
def biasFn {α : Type} [LinearOrderedField α] (b : Option (ℕ → α)) : ℕ → α :=
  b.getD fun _ => 0

/-- The state of a `PartialConv1d` layer: the `Conv1d` hyper-parameters and
learned tensors, plus the `partial` flag set by `ConvNorm.__init__`.
Masks are single-channel time signals (shape `(1, 1, T)`), broadcast over
batch and channels exactly as in the source. -/
structure PartialConv1d (α : Type) where
  in_channels : ℕ
  out_channels : ℕ
  kernel_size : ℕ
  stride : ℕ
  padding : ℕ
  dilation : ℕ
  weight : ℕ → ℕ → ℕ → α
  bias : Option (ℕ → α)
  isPartial : Bool

/-- `mask = torch.ones(1, 1, input.shape[2])` when `mask_in is None`, else
`mask_in`; only indices below the input length are ever read. -/
def maskOrOnes {α : Type} [LinearOrderedField α] (mask_in : Option (ℕ → α)) : ℕ → α :=
  mask_in.getD fun _ => 1

/-- `F.conv1d(mask, weight_maskUpdater, bias=None, …)`: the mask convolved
with the all-ones `1×1×kernel_size` kernel, using the layer's stride,
padding and dilation (channel 0 of a 1-channel convolution). -/
def maskConv {α : Type} [LinearOrderedField α] (pc : PartialConv1d α) (T : ℕ)
    (mask : ℕ → α) : ℕ → α :=
  conv1d T 1 pc.kernel_size pc.stride pc.padding pc.dilation
    (fun _ _ _ => 1) (fun _ => 0) (fun _ => mask) 0

/-- `PartialConv1d.calculate_mask`: returns `(input * mask, mask_ratio,
update_mask)` with `slide_winsize = 1 * kernel_size`. -/
def PartialConv1d.calculate_mask {α : Type} [LinearOrderedField α]
    (pc : PartialConv1d α) (T : ℕ) (x : ℕ → ℕ → ℕ → α)
    (mask_in : Option (ℕ → α)) : (ℕ → ℕ → ℕ → α) × (ℕ → α) × (ℕ → α) :=
  let mask := maskOrOnes mask_in
  let update_mask0 := maskConv pc T mask
  let mask_ratio0 : ℕ → α := fun t => (pc.kernel_size : α) / (update_mask0 t + eps6)
  let update_mask : ℕ → α := fun t => clamp01 (update_mask0 t)
  let mask_ratio : ℕ → α := fun t => mask_ratio0 t * update_mask t
  (fun b c t => x b c t * mask t, mask_ratio, update_mask)

/-- `PartialConv1d.forward_aux`: the raw convolution (bias included) followed
by the partial-padding rescaling, in its bias and bias-free branches. -/
def PartialConv1d.forward_aux {α : Type} [LinearOrderedField α]
    (pc : PartialConv1d α) (T : ℕ) (x : ℕ → ℕ → ℕ → α)
    (mask_ratio update_mask : ℕ → α) : ℕ → ℕ → ℕ → α :=
  let raw := conv1dB T pc.in_channels pc.kernel_size pc.stride pc.padding
    pc.dilation pc.weight (biasFn pc.bias) x
  match pc.bias with
  | some bv => fun b c t => ((raw b c t - bv c) * mask_ratio t + bv c) * update_mask t
  | none => fun b c t => raw b c t * mask_ratio t

/-- The cached buffers of a `PartialConv1d`: `last_size` (a shape, `(-1,-1,-1)`
at construction), `mask_ratio` and `update_mask` (ones at construction). -/
structure PCCache (α : Type) where
  last_size : ℤ × ℤ × ℤ
  mask_ratio : ℕ → α
  update_mask : ℕ → α

/-- The cache as `PartialConv1d.__init__` leaves it. -/
def PCCache.init {α : Type} [LinearOrderedField α] : PCCache α :=
  ⟨(-1, -1, -1), fun _ => 1, fun _ => 1⟩

/-- `x * mask_in` when a mask is given (the non-partial branch of `forward`). -/
def applyMask {α : Type} [LinearOrderedField α] (x : ℕ → ℕ → ℕ → α)
    (mask_in : Option (ℕ → α)) : ℕ → ℕ → ℕ → α :=
  match mask_in with
  | none => x
  | some m => fun b c t => x b c t * m t

/-- `PartialConv1d.forward_with_cache` (eager path: `use_cache = True`):
a cache hit needs `mask_in is None` and `last_size == input.shape`; a miss
recomputes the mask statistics and stores them.  Returns the output and the
updated cache; `(B, C, T)` is the input's shape. -/
def PartialConv1d.forward_with_cache {α : Type} [LinearOrderedField α]
    (pc : PartialConv1d α) (cache : PCCache α) (B C T : ℕ)
    (x : ℕ → ℕ → ℕ → α) (mask_in : Option (ℕ → α)) :
    (ℕ → ℕ → ℕ → α) × PCCache α :=
  match mask_in with
  | none =>
    if cache.last_size = ((B : ℤ), (C : ℤ), (T : ℤ)) then
      (pc.forward_aux T x cache.mask_ratio cache.update_mask, cache)
    else
      let r := pc.calculate_mask T x none
      (pc.forward_aux T r.1 r.2.1 r.2.2, ⟨((B : ℤ), (C : ℤ), (T : ℤ)), r.2.1, r.2.2⟩)
  | some m =>
    let r := pc.calculate_mask T x (some m)
    (pc.forward_aux T r.1 r.2.1 r.2.2, ⟨((B : ℤ), (C : ℤ), (T : ℤ)), r.2.1, r.2.2⟩)

/-- `PartialConv1d.forward_no_cache`. -/
def PartialConv1d.forward_no_cache {α : Type} [LinearOrderedField α]
    (pc : PartialConv1d α) (T : ℕ) (x : ℕ → ℕ → ℕ → α)
    (mask_in : Option (ℕ → α)) : ℕ → ℕ → ℕ → α :=
  if pc.isPartial then
    let r := pc.calculate_mask T x mask_in
    pc.forward_aux T r.1 r.2.1 r.2.2
  else
    conv1dB T pc.in_channels pc.kernel_size pc.stride pc.padding pc.dilation
      pc.weight (biasFn pc.bias) (applyMask x mask_in)

/-- `PartialConv1d.forward`: the caching path when `partial`, the plain
convolution of the (optionally masked) input otherwise.  Returns the output
and the cache after the call. -/
def PartialConv1d.forward {α : Type} [LinearOrderedField α]
    (pc : PartialConv1d α) (cache : PCCache α) (B C T : ℕ)
    (x : ℕ → ℕ → ℕ → α) (mask_in : Option (ℕ → α)) :
    (ℕ → ℕ → ℕ → α) × PCCache α :=
  if pc.isPartial then
    pc.forward_with_cache cache B C T x mask_in
  else
    (conv1dB T pc.in_channels pc.kernel_size pc.stride pc.padding pc.dilation
      pc.weight (biasFn pc.bias) (applyMask x mask_in), cache)

/-- The convolution part of `ConvNorm.__init__`: a `PartialConv1d` whose
padding defaults to `dilation * (kernel_size - 1) / 2` and whose `partial`
flag is `use_partial_padding` (weights are a parameter, abstracting the
random initialization). -/
def ConvNorm.mkConv {α : Type} [LinearOrderedField α]
    (in_channels out_channels kernel_size stride : ℕ) (padding : Option ℕ)
    (dilation : ℕ) (weight : ℕ → ℕ → ℕ → α) (bias : Option (ℕ → α))
    (usePartialPadding : Bool) : PartialConv1d α :=
  { in_channels := in_channels
    out_channels := out_channels
    kernel_size := kernel_size
    stride := stride
    padding := padding.getD (dilation * (kernel_size - 1) / 2)
    dilation := dilation
    weight := weight
    bias := bias
    isPartial := usePartialPadding }

/-- The state of an `Invertible1x1Conv`: the squeezed `c × c` forward weight
and the lazily built inverse convolution's weight (`None` until the first
reverse call). -/
structure Invertible1x1Conv (c : ℕ) (α : Type) where
  W : Matrix (Fin c) (Fin c) α
  inv_conv : Option (Matrix (Fin c) (Fin c) α)

/-- A kernel-size-1 convolution with a `c × c` weight matrix: each (batch,
time) column of `z` is multiplied by the matrix. -/
def conv1x1 {c : ℕ} {α : Type} [Field α] (W : Matrix (Fin c) (Fin c) α)
    (z : ℕ → Fin c → ℕ → α) : ℕ → Fin c → ℕ → α :=
  fun b i t => ∑ j, W i j * z b j t

/-- `torch.Tensor.inverse` on a square matrix, in exact arithmetic:
`det⁻¹ • adjugate` (the matrix inverse whenever the determinant is
nonzero). -/
def matInverse {c : ℕ} {α : Type} [Field α] (W : Matrix (Fin c) (Fin c) α) :
    Matrix (Fin c) (Fin c) α :=
  W.det⁻¹ • W.adjugate

/-- `torch.logdet` of the squeezed weight, with `log` the framework's opaque
logarithm kernel. -/
def logdetF {c : ℕ} {α : Type} [Field α] (log : α → α)
    (W : Matrix (Fin c) (Fin c) α) : α :=
  log W.det

/-- `Invertible1x1Conv.forward`: with `reverse=False` it returns the 1x1
convolution together with `batch_size * n_of_groups * logdet(W)`; with
`reverse=True` it convolves with the lazily built inverse weight (building
and storing it on first use).  Returns the (output, optional log-determinant)
pair and the state after the call. -/
def Invertible1x1Conv.forward {c : ℕ} {α : Type} [Field α] (log : α → α)
    (st : Invertible1x1Conv c α) (batch_size n_of_groups : ℕ)
    (z : ℕ → Fin c → ℕ → α) (reverse : Bool) :
    ((ℕ → Fin c → ℕ → α) × Option α) × Invertible1x1Conv c α :=
  if reverse then
    match st.inv_conv with
    | some Wi => ((conv1x1 Wi z, none), st)
    | none =>
      let Wi := matInverse st.W
      ((conv1x1 Wi z, none), ⟨st.W, some Wi⟩)
  else
    ((conv1x1 st.W z,
      some ((batch_size : α) * (n_of_groups : α) * logdetF log st.W)), st)

/-- `fused_add_tanh_sigmoid_multiply`: channel `c` of the result is
`tanh((a+b)[c]) * sigmoid((a+b)[n_channels + c])`. -/
def fusedAddTanhSigmoidMultiply {α : Type} [LinearOrderedField α]
    (tanh sigmoid : α → α) (a b : ℕ → ℕ → ℕ → α) (n_channels_int : ℕ) :
    ℕ → ℕ → ℕ → α :=
  fun bb c t =>
    tanh (a bb c t + b bb c t) * sigmoid (a bb (n_channels_int + c) t + b bb (n_channels_int + c) t)

/-- Layer `i` of `WaveNet` uses dilation `2 ** i`. -/
def wnDilation (i : ℕ) : ℕ := 2 ^ i

/-- Layer `i` of `WaveNet` uses padding
`int((kernel_size * dilation - dilation) / 2)`. -/
def wnPadding (kernel_size i : ℕ) : ℕ :=
  (kernel_size * 2 ^ i - 2 ^ i) / 2

/-- The learned state of a `WaveNet` stack: sizes and, per layer, the
weight-normalized convolution weights (modelled as plain weights; weight
normalization only reparameterizes the same tensor). -/
structure WaveNet (α : Type) where
  n_in_channels : ℕ
  n_mel_channels : ℕ
  n_layers : ℕ
  n_channels : ℕ
  kernel_size : ℕ
  startW : ℕ → ℕ → ℕ → α
  startB : ℕ → α
  endW : ℕ → ℕ → ℕ → α
  endB : ℕ → α
  condW : ℕ → ℕ → ℕ → α
  condB : ℕ → α
  inW : ℕ → ℕ → ℕ → ℕ → α
  inB : ℕ → ℕ → α
  resW : ℕ → ℕ → ℕ → ℕ → α
  resB : ℕ → ℕ → α

/-- One iteration of the `WaveNet.forward` loop on the `(audio, output)`
pair: the dilated `in_layer` convolution, the fused gate with the matching
channel slice of the pre-computed conditioning `spectC`, the `res_skip`
convolution, and the residual/skip update (`la` is the time length of
`audio`). -/
def WaveNet.step {α : Type} [LinearOrderedField α] (tanh sigmoid : α → α)
    (w : WaveNet α) (spectC : ℕ → ℕ → ℕ → α) (la : ℕ)
    (st : (ℕ → ℕ → ℕ → α) × (ℕ → ℕ → ℕ → α)) (i : ℕ) :
    (ℕ → ℕ → ℕ → α) × (ℕ → ℕ → ℕ → α) :=
  let audio := st.1
  let output := st.2
  let inOut := conv1dB la w.n_channels w.kernel_size 1
    (wnPadding w.kernel_size i) (wnDilation i) (w.inW i) (w.inB i) audio
  let spectSlice : ℕ → ℕ → ℕ → α := fun b c t => spectC b (i * 2 * w.n_channels + c) t
  let acts := fusedAddTanhSigmoidMultiply tanh sigmoid inOut spectSlice w.n_channels
  let lacts := convOutLen la w.kernel_size 1 (wnPadding w.kernel_size i) (wnDilation i)
  let res_skip_acts := conv1dB lacts w.n_channels 1 1 0 1 (w.resW i) (w.resB i) acts
  if i < w.n_layers - 1 then
    (fun b c t => audio b c t + res_skip_acts b c t,
     fun b c t => output b c t + res_skip_acts b (w.n_channels + c) t)
  else
    (audio, fun b c t => output b c t + res_skip_acts b c t)

/-- `WaveNet.forward` on an `(audio, spect)` pair of time lengths `T` and
`Ts`: the `start` 1x1 convolution, a zero skip accumulator, the `cond_layer`
convolution of the spectrogram, the layer loop, and the `end` convolution. -/
def WaveNet.forward {α : Type} [LinearOrderedField α] (tanh sigmoid : α → α)
    (w : WaveNet α) (T Ts : ℕ) (audio spect : ℕ → ℕ → ℕ → α) : ℕ → ℕ → ℕ → α :=
  let a0 := conv1dB T w.n_in_channels 1 1 0 1 w.startW w.startB audio
  let la := convOutLen T 1 1 0 1
  let output0 : ℕ → ℕ → ℕ → α := fun _ _ _ => 0
  let spectC := conv1dB Ts w.n_mel_channels 1 1 0 1 w.condW w.condB spect
  let st := (List.range w.n_layers).foldl (WaveNet.step tanh sigmoid w spectC la) (a0, output0)
  conv1dB la w.n_channels 1 1 0 1 w.endW w.endB st.2

/-- Shapes `(batch, channels, time)`; `none` marks a shape error the
framework would raise. -/
abbrev Shape3 := ℕ × ℕ × ℕ

/-- Shape semantics of `Conv1d` with `cin` expected input channels and `co`
output channels: the input must have `cin` channels and a receptive field
that fits (PyTorch raises when the output would be empty). -/
def convShape (co k stride pad dil cin : ℕ) (s : Option Shape3) : Option Shape3 :=
  s.bind fun bct =>
    if bct.2.1 = cin ∧ dil * (k - 1) + 1 ≤ bct.2.2 + 2 * pad then
      some (bct.1, co, convOutLen bct.2.2 k stride pad dil)
    else none

/-- Shape semantics of an elementwise binary operation: both operands must
share one shape. -/
def addShape (s1 s2 : Option Shape3) : Option Shape3 :=
  s1.bind fun a => s2.bind fun b => if a = b then some a else none

/-- Shape of `x[:, :hi, :]` (narrowing slice; never errors). -/
def sliceHiShape (hi : ℕ) (s : Option Shape3) : Option Shape3 :=
  s.map fun bct => (bct.1, min hi bct.2.1, bct.2.2)

/-- Shape of `x[:, lo:, :]`. -/
def sliceLoShape (lo : ℕ) (s : Option Shape3) : Option Shape3 :=
  s.map fun bct => (bct.1, bct.2.1 - lo, bct.2.2)

/-- Shape of `x[:, lo:hi, :]`. -/
def sliceRangeShape (lo hi : ℕ) (s : Option Shape3) : Option Shape3 :=
  s.map fun bct => (bct.1, min hi bct.2.1 - lo, bct.2.2)

/-- Shape semantics of `fused_add_tanh_sigmoid_multiply`. -/
def fusedShape (sa sb : Option Shape3) (n_channels_int : ℕ) : Option Shape3 :=
  let ia := addShape sa sb
  addShape (sliceHiShape n_channels_int ia) (sliceLoShape n_channels_int ia)

/-- Shape semantics of one `WaveNet.forward` loop iteration. -/
def WaveNet.stepShape {α : Type} (w : WaveNet α) (spectCSh : Option Shape3)
    (st : Option Shape3 × Option Shape3) (i : ℕ) :
    Option Shape3 × Option Shape3 :=
  let sa := st.1
  let so := st.2
  let inOutSh := convShape (2 * w.n_channels) w.kernel_size 1
    (wnPadding w.kernel_size i) (wnDilation i) w.n_channels sa
  let sliceSh := sliceRangeShape (i * 2 * w.n_channels)
    (i * 2 * w.n_channels + 2 * w.n_channels) spectCSh
  let actsSh := fusedShape inOutSh sliceSh w.n_channels
  let res_skip_channels := if i < w.n_layers - 1 then 2 * w.n_channels else w.n_channels
  let resSh := convShape res_skip_channels 1 1 0 1 w.n_channels actsSh
  if i < w.n_layers - 1 then
    (addShape sa (sliceHiShape w.n_channels resSh),
     addShape so (sliceLoShape w.n_channels resSh))
  else
    (sa, addShape so resSh)

/-- Shape semantics of `WaveNet.forward`. -/
def WaveNet.forwardShape {α : Type} (w : WaveNet α)
    (sAudio sSpect : Option Shape3) : Option Shape3 :=
  let sa0 := convShape w.n_channels 1 1 0 1 w.n_in_channels sAudio
  let so0 := sa0
  let sc := convShape (2 * w.n_channels * w.n_layers) 1 1 0 1 w.n_mel_channels sSpect
  let st := (List.range w.n_layers).foldl (WaveNet.stepShape w sc) (sa0, so0)
  convShape (2 * w.n_in_channels) 1 1 0 1 w.n_channels st.2

/-- `torch.nn.Linear` applied to one vector: `y = W x + b` with `inDim`
input features. -/
def linearF {α : Type} [Field α] (inDim : ℕ) (W : ℕ → ℕ → α) (b : ℕ → α)
    (x : ℕ → α) : ℕ → α :=
  fun o => b o + ∑ i ∈ Finset.range inDim, W o i * x i

/-- `torch.nn.Softmax` over the first `n` entries of a vector, with `exp`
the framework's opaque exponential kernel. -/
def softmaxF {α : Type} [Field α] (exp : α → α) (n : ℕ) (x : ℕ → α) :
    ℕ → α :=
  fun j => exp (x j) / ∑ i ∈ Finset.range n, exp (x i)

/-- The learned state of a `StyleAttention` module: sizes (`gst_size` is
`output_size`, `n_token` style tokens, `n_head` attention heads), the token
bank, and the three linear layers. -/
structure StyleAttention (α : Type) where
  input_size : ℕ
  gst_size : ℕ
  n_token : ℕ
  n_head : ℕ
  tokens : ℕ → ℕ → α
  qW : ℕ → ℕ → α
  qB : ℕ → α
  kW : ℕ → ℕ → α
  kB : ℕ → α
  vW : ℕ → ℕ → α
  vB : ℕ → α

/-- `token_size = output_size // n_head`. -/
def StyleAttention.token_size {α : Type} (sa : StyleAttention α) : ℕ :=
  sa.gst_size / sa.n_head

/-- The query projection `q_linear(inputs)` for batch element `b`. -/
def StyleAttention.q {α : Type} [Field α] (sa : StyleAttention α)
    (inputs : ℕ → ℕ → α) (b : ℕ) : ℕ → α :=
  linearF sa.input_size sa.qW sa.qB (inputs b)

/-- The key projection `k_linear(tanh(tokens))` for token `tok` (the token
bank is expanded over the batch, so keys do not depend on the batch
element). -/
def StyleAttention.k {α : Type} [Field α] (tanh : α → α)
    (sa : StyleAttention α) (tok : ℕ) : ℕ → α :=
  linearF sa.token_size sa.kW sa.kB fun d => tanh (sa.tokens tok d)

/-- The value projection `v_linear(tanh(tokens))` for token `tok`. -/
def StyleAttention.v {α : Type} [Field α] (tanh : α → α)
    (sa : StyleAttention α) (tok : ℕ) : ℕ → α :=
  linearF sa.token_size sa.vW sa.vB fun d => tanh (sa.tokens tok d)

/-- `StyleAttention.forward` for a batch of `bs` input vectors: the query,
key and value projections, the `view`/`permute` reshaping into
`n_head * bs` flattened head-batch rows (row `i` holds head `i / bs`, batch
element `i % bs`), the scaled scores with temperature
`(output_size // n_head) ** 0.5`, the softmax over tokens (overridden by a
one-hot distribution when `token_id` is given), the batched matrix product
with the values, and the reshaping back to `(bs, n_head * token_size)`
(position `j` reads head `j / token_size`, coordinate `j % token_size`). -/
def StyleAttention.forward {α : Type} [Field α] (tanh exp sqrtF : α → α)
    (sa : StyleAttention α) (bs : ℕ) (inputs : ℕ → ℕ → α)
    (token_id : Option ℕ) : ℕ → ℕ → α :=
  let ts := sa.token_size
  let qh : ℕ → ℕ → α := fun i d => sa.q inputs (i % bs) (i / bs * ts + d)
  let kh : ℕ → ℕ → ℕ → α := fun i d tok => StyleAttention.k tanh sa tok (i / bs * ts + d)
  let vh : ℕ → ℕ → ℕ → α := fun i tok d => StyleAttention.v tanh sa tok (i / bs * ts + d)
  let scores : ℕ → ℕ → α := fun i tok =>
    (∑ d ∈ Finset.range ts, qh i d * kh i d tok) / sqrtF (ts : α)
  let sm : ℕ → ℕ → α := fun i => softmaxF exp sa.n_token (scores i)
  let scoresFinal : ℕ → ℕ → α :=
    match token_id with
    | none => sm
    | some tid => fun _ tok => if tok = tid then 1 else 0
  let se0 : ℕ → ℕ → α := fun i d =>
    ∑ tok ∈ Finset.range sa.n_token, scoresFinal i tok * vh i tok d
  fun b j => se0 (j / ts * bs + b) (j % ts)

/-- The multi-head style attention described by the specification: queries,
keys and values split into `n_head` heads of `token_size` coordinates, head
`h` of batch element `b` scoring token `tok` as the scaled dot product. -/
def specHeadScores {α : Type} [Field α] (tanh sqrtF : α → α)
    (sa : StyleAttention α) (inputs : ℕ → ℕ → α) (h b tok : ℕ) : α :=
  (∑ d ∈ Finset.range sa.token_size,
    sa.q inputs b (h * sa.token_size + d) *
      StyleAttention.k tanh sa tok (h * sa.token_size + d)) / sqrtF (sa.token_size : α)

/-- The specification's per-head attention weights: a softmax of the scaled
scores over the `n_token` style tokens. -/
def specHeadWeights {α : Type} [Field α] (tanh exp sqrtF : α → α)
    (sa : StyleAttention α) (inputs : ℕ → ℕ → α) (h b : ℕ) : ℕ → α :=
  softmaxF exp sa.n_token (specHeadScores tanh sqrtF sa inputs h b)

/-- The learned state of a `WeightedSpeakerEmbedding`: the frozen pretrained
embedding table and the learnable `1 × num_embeddings` weight row. -/
structure WeightedSpeakerEmbedding (α : Type) where
  num_embeddings : ℕ
  pretrained_embedding : ℕ → ℕ → α
  embedding_weight : ℕ → α

/-- `WeightedSpeakerEmbedding.forward`: the weight row repeated
`len(speaker)` times, a softmax over the embeddings dimension, and the
matrix product with the pretrained table.  Returns the number of rows
(`len(speaker)`) and the row values. -/
def WeightedSpeakerEmbedding.forward {α : Type} [Field α] (exp : α → α)
    (m : WeightedSpeakerEmbedding α) (speaker : List ℤ) :
    ℕ × (ℕ → ℕ → α) :=
  let n := speaker.length
  let weight : ℕ → ℕ → α := fun _ => m.embedding_weight
  let smx : ℕ → ℕ → α := fun i => softmaxF exp m.num_embeddings (weight i)
  (n, fun i k =>
    ∑ j ∈ Finset.range m.num_embeddings, smx i j * m.pretrained_embedding j k)

/-! ## Theorems -/

lemma conv1x1_mulVec {c : ℕ} {α : Type} [Field α] (W : Matrix (Fin c) (Fin c) α)
    (z : ℕ → Fin c → ℕ → α) (b : ℕ) (i : Fin c) (t : ℕ) :
    conv1x1 W z b i t = W.mulVec (fun j => z b j t) i := rfl

lemma conv1x1_comp {c : ℕ} {α : Type} [Field α]
    (W1 W2 : Matrix (Fin c) (Fin c) α) (h : W1 * W2 = 1)
    (z : ℕ → Fin c → ℕ → α) (b : ℕ) (i : Fin c) (t : ℕ) :
    conv1x1 W1 (conv1x1 W2 z) b i t = z b i t := by
  rw [conv1x1_mulVec]
  have hz : (fun j => conv1x1 W2 z b j t) = W2.mulVec fun j => z b j t := rfl
  rw [hz, Matrix.mulVec_mulVec, h, Matrix.one_mulVec]

lemma matInverse_eq_inv {c : ℕ} {α : Type} [Field α]
    (W : Matrix (Fin c) (Fin c) α) : matInverse W = W⁻¹ := by
  simp only [matInverse, Matrix.inv_def, Ring.inverse_eq_inv]

/-- C1: `Invertible1x1Conv` is invertible: for every input tensor `z` whose
weight matrix is invertible (nonzero determinant), if the forward pass
(`reverse=False`) returns `(z', log_det_W)` then the reverse pass
(`reverse=True`) on the state left by the forward pass maps `z'` back to
`z` in exact arithmetic, given that a lazily built inverse weight, when
already present, is the matrix inverse of the current forward weight. -/
theorem c1_invertible1x1_roundtrip {c : ℕ} (st : Invertible1x1Conv c ℚ)
    (lg : ℚ → ℚ) (batch_size n_of_groups : ℕ) (z : ℕ → Fin c → ℕ → ℚ)
    (hdet : st.W.det ≠ 0)
    (hinv : ∀ Wi, st.inv_conv = some Wi → Wi * st.W = 1) :
    ∀ b i t,
      (Invertible1x1Conv.forward lg
          (Invertible1x1Conv.forward lg st batch_size n_of_groups z false).2
          batch_size n_of_groups
          (Invertible1x1Conv.forward lg st batch_size n_of_groups z false).1.1
          true).1.1 b i t = z b i t := by
  intro b i t
  obtain ⟨W, ic⟩ := st
  cases ic with
  | none =>
    have h1 : matInverse W * W = 1 := by
      rw [matInverse_eq_inv]
      exact Matrix.nonsing_inv_mul W (isUnit_iff_ne_zero.mpr hdet)
    exact conv1x1_comp (matInverse W) W h1 z b i t
  | some Wi =>
    have h1 : Wi * W = 1 := hinv Wi rfl
    exact conv1x1_comp Wi W h1 z b i t

/-- C1 witness: the identity weight on a 1-channel state, with the constant
input 3, round-trips through the forward and reverse passes. -/
theorem c1_invertible1x1_roundtrip_witness :
    (Invertible1x1Conv.forward (fun _ => 0)
        (Invertible1x1Conv.forward (fun _ => 0)
          (⟨1, none⟩ : Invertible1x1Conv 1 ℚ) 1 1 (fun _ _ _ => 3) false).2
        1 1
        (Invertible1x1Conv.forward (fun _ => 0)
          (⟨1, none⟩ : Invertible1x1Conv 1 ℚ) 1 1 (fun _ _ _ => 3) false).1.1
        true).1.1 0 0 0 = 3 :=
  c1_invertible1x1_roundtrip (⟨1, none⟩ : Invertible1x1Conv 1 ℚ)
    (fun _ => 0) 1 1 (fun _ _ _ => 3)
    (by simp) (by intro Wi h; cases h) 0 0 0

/-- C2: with `reverse=False`, `Invertible1x1Conv.forward` on an input of
shape `(batch_size, group_size, n_of_groups)` returns the 1x1 convolution of
`z` by the weight matrix (each column multiplied by `W`) as its first
component, and `batch_size * n_of_groups * logdet(W)` as its second. -/
theorem c2_forward_conv_and_logdet {c : ℕ} (st : Invertible1x1Conv c ℝ)
    (batch_size n_of_groups : ℕ) (z : ℕ → Fin c → ℕ → ℝ) :
    (∀ b i t,
      (Invertible1x1Conv.forward Real.log st batch_size n_of_groups z false).1.1 b i t
        = st.W.mulVec (fun j => z b j t) i) ∧
    (Invertible1x1Conv.forward Real.log st batch_size n_of_groups z false).1.2
        = some ((batch_size : ℝ) * (n_of_groups : ℝ) * Real.log st.W.det) := by
  exact ⟨fun b i t => rfl, rfl⟩

/-- The output formula claimed for `PartialConv1d` with `partial=True`
(C3 as stated): the clamp factor `min(count, 1)` multiplies only the whole
expression, not also the mask ratio. -/
def claimedPartialOutput {α : Type} [LinearOrderedField α]
    (pc : PartialConv1d α) (T : ℕ) (x : ℕ → ℕ → ℕ → α)
    (mask_in : Option (ℕ → α)) : ℕ → ℕ → ℕ → α :=
  let mask := maskOrOnes mask_in
  let cnt := maskConv pc T mask
  let raw := conv1dB T pc.in_channels pc.kernel_size pc.stride pc.padding
    pc.dilation pc.weight (biasFn pc.bias) fun b c t => x b c t * mask t
  match pc.bias with
  | some bv => fun b c t =>
      ((raw b c t - bv c) * ((pc.kernel_size : α) / (cnt t + eps6)) + bv c) * min (cnt t) 1
  | none => fun b c t =>
      raw b c t * ((pc.kernel_size : α) / (cnt t + eps6)) * min (cnt t) 1

/-- The corrected output formula for `PartialConv1d` with `partial=True`:
the clamp factor `clamp(count, 0, 1)` multiplies the mask ratio, and (in the
bias branch) the whole de-biased expression is multiplied by it again. -/
def amendedPartialOutput {α : Type} [LinearOrderedField α]
    (pc : PartialConv1d α) (T : ℕ) (x : ℕ → ℕ → ℕ → α)
    (mask_in : Option (ℕ → α)) : ℕ → ℕ → ℕ → α :=
  let mask := maskOrOnes mask_in
  let cnt := maskConv pc T mask
  let raw := conv1dB T pc.in_channels pc.kernel_size pc.stride pc.padding
    pc.dilation pc.weight (biasFn pc.bias) fun b c t => x b c t * mask t
  match pc.bias with
  | some bv => fun b c t =>
      ((raw b c t - bv c) * ((pc.kernel_size : α) / (cnt t + eps6)) * clamp01 (cnt t)
        + bv c) * clamp01 (cnt t)
  | none => fun b c t =>
      raw b c t * ((pc.kernel_size : α) / (cnt t + eps6)) * clamp01 (cnt t)

/-- A concrete `PartialConv1d` over `ℚ` (1 in and out channel, kernel 1,
stride 1, no padding, dilation 1, unit weight, unit bias, `partial=True`)
used to separate the claimed and actual partial-padding formulas. -/
def pcEx : PartialConv1d ℚ :=
  ⟨1, 1, 1, 1, 0, 1, (fun _ _ _ => 1), some (fun _ => 1), true⟩

/-- C3 counterexample: on the all-ones input with the fractional mask `1/2`,
the output of the partial convolution differs from the claimed formula (the
code multiplies the mask ratio by the clamped count *and* multiplies the
whole de-biased expression by it again, which differs once the clamped
count is strictly between 0 and 1). -/
theorem c3_partial_formula_counterexample :
    pcEx.forward_no_cache 1 (fun _ _ _ => 1) (some fun _ => (1 : ℚ)/2) 0 0 0 ≠
      claimedPartialOutput pcEx 1 (fun _ _ _ => 1) (some fun _ => (1 : ℚ)/2) 0 0 0 := by
  have h1 : pcEx.forward_no_cache 1 (fun _ _ _ => 1) (some fun _ => (1 : ℚ)/2) 0 0 0
      = 750001/1000002 := by
    simp only [pcEx, PartialConv1d.forward_no_cache, PartialConv1d.calculate_mask,
      PartialConv1d.forward_aux, conv1dB, conv1d, maskConv, maskOrOnes, biasFn,
      eps6, clamp01, Option.getD, if_true, Finset.sum_range_succ, Finset.sum_range_zero]
    norm_num
  have h2 : claimedPartialOutput pcEx 1 (fun _ _ _ => 1) (some fun _ => (1 : ℚ)/2) 0 0 0
      = 1000001/1000002 := by
    simp only [pcEx, claimedPartialOutput, conv1dB, conv1d, maskConv, maskOrOnes, biasFn,
      eps6, Option.getD, Finset.sum_range_succ, Finset.sum_range_zero]
    norm_num
  rw [h1, h2]
  norm_num

/-- C3 (amended): for every 3-d input and mask (or the all-ones mask when
`mask_in` is `None`), `PartialConv1d` with `partial=True` returns, at each
output position, `(conv(input * mask) - bias) * (kernel_size / (count + 1e-6))
* clamp(count, 0, 1) + bias`, the whole expression additionally multiplied
by `clamp(count, 0, 1)`, when bias is present; without bias it returns
`conv(input * mask) * (kernel_size / (count + 1e-6)) * clamp(count, 0, 1)`. -/
theorem c3_partial_formula_amended {α : Type} [LinearOrderedField α]
    (pc : PartialConv1d α) (T : ℕ) (x : ℕ → ℕ → ℕ → α)
    (mask_in : Option (ℕ → α)) (hp : pc.isPartial = true) :
    pc.forward_no_cache T x mask_in = amendedPartialOutput pc T x mask_in := by
  funext b c t
  simp only [PartialConv1d.forward_no_cache, hp, if_true,
    PartialConv1d.calculate_mask, PartialConv1d.forward_aux, amendedPartialOutput]
  cases pc.bias with
  | none => simp [mul_assoc]
  | some bv => simp [mul_assoc]

/-- C3 witness: the amended formula evaluated on the concrete module. -/
theorem c3_partial_formula_amended_witness :
    pcEx.isPartial = true ∧
    pcEx.forward_no_cache 1 (fun _ _ _ => 1) (some fun _ => (1 : ℚ)/2) =
      amendedPartialOutput pcEx 1 (fun _ _ _ => 1) (some fun _ => (1 : ℚ)/2) :=
  ⟨rfl, c3_partial_formula_amended pcEx 1 (fun _ _ _ => 1)
    (some fun _ => (1 : ℚ)/2) rfl⟩

/-- C4: the divisor `update_mask + 1e-6` of `calculate_mask` is strictly
positive whenever the mask entries are nonnegative, and with `partial=True`
every output position whose receptive-field window contains no valid
(`mask=1`) input — for a 0/1-valued mask — is exactly zero, in both the
bias and the bias-free branch. -/
theorem c4_divisor_pos_and_empty_window_zero (pc : PartialConv1d ℚ) (T : ℕ)
    (x : ℕ → ℕ → ℕ → ℚ) (mask_in : Option (ℕ → ℚ)) (b c t : ℕ) :
    ((∀ s, 0 ≤ maskOrOnes mask_in s) →
      0 < maskConv pc T (maskOrOnes mask_in) t + eps6) ∧
    (pc.isPartial = true →
      (∀ s, maskOrOnes mask_in s = 0 ∨ maskOrOnes mask_in s = 1) →
      (∀ j < pc.kernel_size, pc.padding ≤ t * pc.stride + j * pc.dilation →
        t * pc.stride + j * pc.dilation < T + pc.padding →
        maskOrOnes mask_in (t * pc.stride + j * pc.dilation - pc.padding) ≠ 1) →
      pc.forward_no_cache T x mask_in b c t = 0) := by
  constructor
  · intro hnn
    have h0 : 0 ≤ maskConv pc T (maskOrOnes mask_in) t := by
      simp only [maskConv, conv1d, zero_add]
      refine Finset.sum_nonneg fun ci _ => Finset.sum_nonneg fun j _ => ?_
      rw [one_mul]
      split
      · exact hnn _
      · exact le_refl 0
    have he : (0 : ℚ) < eps6 := by norm_num [eps6]
    linarith
  · intro hp hbin hwin
    have hcnt : maskConv pc T (maskOrOnes mask_in) t = 0 := by
      simp only [maskConv, conv1d, zero_add]
      refine Finset.sum_eq_zero fun ci _ => Finset.sum_eq_zero fun j hj => ?_
      rw [one_mul]
      split
      case isTrue h =>
        rcases hbin (t * pc.stride + j * pc.dilation - pc.padding) with h0 | h1
        · exact h0
        · exact absurd h1 (hwin j (Finset.mem_range.mp hj) h.1 h.2)
      case isFalse h => rfl
    have hc01 : clamp01 (maskConv pc T (maskOrOnes mask_in) t) = 0 := by
      rw [hcnt]; norm_num [clamp01]
    simp only [PartialConv1d.forward_no_cache, hp, if_true,
      PartialConv1d.calculate_mask, PartialConv1d.forward_aux]
    cases pc.bias with
    | none => simp [hc01]
    | some bv => simp [hc01]

/-- C4 witness: with the all-zero mask the divisor is positive and the
output vanishes on the concrete module. -/
theorem c4_divisor_pos_and_empty_window_zero_witness :
    (0 < maskConv pcEx 1 (maskOrOnes (some fun _ => (0 : ℚ))) 0 + eps6) ∧
    pcEx.forward_no_cache 1 (fun _ _ _ => 1) (some fun _ => (0 : ℚ)) 0 0 0 = 0 :=
  ⟨(c4_divisor_pos_and_empty_window_zero pcEx 1 (fun _ _ _ => 1)
      (some fun _ => (0 : ℚ)) 0 0 0).1 (by intro s; norm_num [maskOrOnes]),
   (c4_divisor_pos_and_empty_window_zero pcEx 1 (fun _ _ _ => 1)
      (some fun _ => (0 : ℚ)) 0 0 0).2 rfl
      (by intro s; left; rfl)
      (by intro j hj h1 h2; norm_num [maskOrOnes])⟩

/-- C5: a `PartialConv1d` built by `ConvNorm.__init__` with
`use_partial_padding=False` returns, from `forward`, the plain convolution
of `input * mask_in` (of `input` itself when `mask_in` is `None`) with the
layer's weight and bias — no partial-padding rescaling — and leaves the
cache untouched. -/
theorem c5_nonpartial_plain_conv (in_channels out_channels kernel_size stride : ℕ)
    (padding : Option ℕ) (dilation : ℕ) (weight : ℕ → ℕ → ℕ → ℚ)
    (bias : Option (ℕ → ℚ)) (cache : PCCache ℚ) (B C T : ℕ)
    (x : ℕ → ℕ → ℕ → ℚ) (mask_in : Option (ℕ → ℚ)) :
    (ConvNorm.mkConv in_channels out_channels kernel_size stride padding
        dilation weight bias false).forward cache B C T x mask_in =
      (conv1dB T in_channels kernel_size stride
        (padding.getD (dilation * (kernel_size - 1) / 2)) dilation weight
        (biasFn bias) (applyMask x mask_in), cache) := rfl

/-- C8: caching never changes the result: with `partial=True`, whenever the
cached buffers are consistent with the call (a mask is supplied, or the
cached shape differs from the input's, or the cached `mask_ratio` and
`update_mask` equal the ones `calculate_mask` would compute), the caching
path of `forward` returns exactly `forward_no_cache`. -/
theorem c8_cache_transparent (pc : PartialConv1d ℚ) (cache : PCCache ℚ)
    (B C T : ℕ) (x : ℕ → ℕ → ℕ → ℚ) (mask_in : Option (ℕ → ℚ))
    (hp : pc.isPartial = true)
    (hcons : mask_in ≠ none ∨ cache.last_size ≠ ((B : ℤ), (C : ℤ), (T : ℤ)) ∨
      (cache.mask_ratio = (pc.calculate_mask T x none).2.1 ∧
        cache.update_mask = (pc.calculate_mask T x none).2.2)) :
    pc.forward_no_cache T x mask_in = (pc.forward cache B C T x mask_in).1 := by
  simp only [PartialConv1d.forward, PartialConv1d.forward_no_cache, hp, if_true]
  cases mask_in with
  | some m => rfl
  | none =>
    simp only [PartialConv1d.forward_with_cache]
    by_cases hls : cache.last_size = ((B : ℤ), (C : ℤ), (T : ℤ))
    · rcases hcons with h | h | ⟨hmr, hum⟩
      · exact absurd rfl h
      · exact absurd hls h
      · have hx : (pc.calculate_mask T x none).1 = x := by
          funext b c t
          simp [PartialConv1d.calculate_mask, maskOrOnes]
        rw [if_pos hls, hx, hmr, hum]
    · rw [if_neg hls]

/-- C8 witness: a freshly constructed cache (`last_size = (-1,-1,-1)`) is
consistent with any call, here on the concrete module with no mask. -/
theorem c8_cache_transparent_witness :
    pcEx.forward_no_cache 1 (fun _ _ _ => 1) none =
      (pcEx.forward PCCache.init 1 1 1 (fun _ _ _ => 1) none).1 :=
  c8_cache_transparent pcEx PCCache.init 1 1 1 (fun _ _ _ => 1) none rfl
    (Or.inr (Or.inl (by decide)))

lemma softmaxF_nonneg (n : ℕ) (x : ℕ → ℝ) (j : ℕ) :
    0 ≤ softmaxF Real.exp n x j := by
  unfold softmaxF
  exact div_nonneg (Real.exp_pos _).le
    (Finset.sum_nonneg fun i _ => (Real.exp_pos _).le)

lemma softmaxF_sum_one (n : ℕ) (hn : 0 < n) (x : ℕ → ℝ) :
    ∑ j ∈ Finset.range n, softmaxF Real.exp n x j = 1 := by
  unfold softmaxF
  rw [← Finset.sum_div]
  refine div_self (ne_of_gt (Finset.sum_pos (fun i _ => Real.exp_pos _) ?_))
  exact Finset.nonempty_range_iff.mpr hn.ne'

/-- C10: `WeightedSpeakerEmbedding.forward` depends on `speaker` only
through its length: it returns `len(speaker)` rows, each equal to
`softmax(embedding_weight)` matrix-multiplied with the pretrained table, so
two calls with different speaker ids but equal length agree. -/
theorem c10_speaker_embedding_length_only (m : WeightedSpeakerEmbedding ℝ)
    (speaker1 speaker2 : List ℤ) :
    (m.forward Real.exp speaker1).1 = speaker1.length ∧
    (∀ i k, (m.forward Real.exp speaker1).2 i k =
      ∑ j ∈ Finset.range m.num_embeddings,
        softmaxF Real.exp m.num_embeddings m.embedding_weight j *
          m.pretrained_embedding j k) ∧
    (speaker1.length = speaker2.length →
      m.forward Real.exp speaker1 = m.forward Real.exp speaker2) := by
  refine ⟨rfl, fun i k => rfl, fun hlen => ?_⟩
  simp only [WeightedSpeakerEmbedding.forward]
  rw [hlen]

/-- A concrete two-embedding `WeightedSpeakerEmbedding` over `ℝ`. -/
def wseEx : WeightedSpeakerEmbedding ℝ :=
  ⟨2, (fun _ _ => 1), fun _ => 0⟩

/-- C10 witness: two different two-element speaker-id lists give the same
output. -/
theorem c10_speaker_embedding_length_only_witness :
    wseEx.forward Real.exp [2, 3] = wseEx.forward Real.exp [5, 7] :=
  (c10_speaker_embedding_length_only wseEx [2, 3] [5, 7]).2.2 rfl

/-- C9: when `token_id` is given, `StyleAttention.forward` discards the
input-derived softmax scores and uses the `token_id` distribution instead,
so any two input batches of the same batch size yield the identical style
embedding — the output does not depend on the input values. -/
theorem c9_style_attention_token_override (sa : StyleAttention ℝ) (bs : ℕ)
    (inputs1 inputs2 : ℕ → ℕ → ℝ) (tid : ℕ) :
    StyleAttention.forward Real.tanh Real.exp Real.sqrt sa bs inputs1 (some tid) =
      StyleAttention.forward Real.tanh Real.exp Real.sqrt sa bs inputs2 (some tid) := rfl

/-- C6: with `token_id=None`, `StyleAttention.forward` computes multi-head
attention with `n_head` heads of `gst_size // n_head` coordinates: each
head's token weights are the softmax of the dot-product scores scaled by
`1 / sqrt(gst_size // n_head)` — hence nonnegative and summing to 1 over
the `n_style_token` tokens — and entry `h * token_size + d` of the returned
`(batch, n_head * token_size)` embedding is the corresponding weighted sum
of the value projections. -/
theorem c6_style_attention_heads (sa : StyleAttention ℝ) (bs : ℕ)
    (inputs : ℕ → ℕ → ℝ) (b h d : ℕ) (hts : 0 < sa.token_size) (hb : b < bs)
    (hd : d < sa.token_size) (hnt : 0 < sa.n_token) :
    (∀ tok, 0 ≤ specHeadWeights Real.tanh Real.exp Real.sqrt sa inputs h b tok) ∧
    (∑ tok ∈ Finset.range sa.n_token,
        specHeadWeights Real.tanh Real.exp Real.sqrt sa inputs h b tok = 1) ∧
    StyleAttention.forward Real.tanh Real.exp Real.sqrt sa bs inputs none b
        (h * sa.token_size + d) =
      ∑ tok ∈ Finset.range sa.n_token,
        specHeadWeights Real.tanh Real.exp Real.sqrt sa inputs h b tok *
          StyleAttention.v Real.tanh sa tok (h * sa.token_size + d) := by
  refine ⟨fun tok => softmaxF_nonneg _ _ _, softmaxF_sum_one _ hnt _, ?_⟩
  have hbs : 0 < bs := Nat.pos_of_ne_zero (by omega)
  have hjdiv : (h * sa.token_size + d) / sa.token_size = h := by
    rw [Nat.mul_comm, Nat.mul_add_div hts, Nat.div_eq_of_lt hd, Nat.add_zero]
  have hjmod : (h * sa.token_size + d) % sa.token_size = d := by
    rw [Nat.mul_comm, Nat.mul_add_mod, Nat.mod_eq_of_lt hd]
  have hidiv : (h * bs + b) / bs = h := by
    rw [Nat.mul_comm, Nat.mul_add_div hbs, Nat.div_eq_of_lt hb, Nat.add_zero]
  have himod : (h * bs + b) % bs = b := by
    rw [Nat.mul_comm, Nat.mul_add_mod, Nat.mod_eq_of_lt hb]
  simp only [StyleAttention.forward, hjdiv, hjmod, hidiv, himod,
    specHeadWeights, specHeadScores, softmaxF]

/-- A concrete one-head, one-token `StyleAttention` over `ℝ` with zero
weights. -/
def saEx : StyleAttention ℝ :=
  ⟨1, 1, 1, 1, (fun _ _ => 0), (fun _ _ => 0), (fun _ => 0), (fun _ _ => 0),
    (fun _ => 0), (fun _ _ => 0), fun _ => 0⟩

/-- C6 witness: the multi-head decomposition on the concrete one-head
module with a one-element batch. -/
theorem c6_style_attention_heads_witness :
    (∀ tok, 0 ≤ specHeadWeights Real.tanh Real.exp Real.sqrt saEx
      (fun _ _ => 0) 0 0 tok) ∧
    (∑ tok ∈ Finset.range saEx.n_token,
      specHeadWeights Real.tanh Real.exp Real.sqrt saEx (fun _ _ => 0) 0 0 tok = 1) ∧
    StyleAttention.forward Real.tanh Real.exp Real.sqrt saEx 1 (fun _ _ => 0)
        none 0 (0 * saEx.token_size + 0) =
      ∑ tok ∈ Finset.range saEx.n_token,
        specHeadWeights Real.tanh Real.exp Real.sqrt saEx (fun _ _ => 0) 0 0 tok *
          StyleAttention.v Real.tanh saEx tok (0 * saEx.token_size + 0) :=
  c6_style_attention_heads saEx 1 (fun _ _ => 0) 0 0 0
    (by decide) (by decide) (by decide) (by decide)

lemma convOutLen_one (T : ℕ) (hT : 1 ≤ T) : convOutLen T 1 1 0 1 = T := by
  unfold convOutLen
  omega

lemma convOutLen_wn (T k i : ℕ) (hk : k % 2 = 1) (hT : 1 ≤ T) :
    convOutLen T k 1 (wnPadding k i) (wnDilation i) = T := by
  have hsub : k * 2 ^ i - 2 ^ i = (k - 1) * 2 ^ i := by
    rw [Nat.sub_mul, Nat.one_mul]
  have hdvd : 2 ∣ (k - 1) * 2 ^ i := Dvd.dvd.mul_right (by omega) _
  have h2p : 2 * wnPadding k i = (k - 1) * 2 ^ i := by
    unfold wnPadding
    rw [hsub]
    exact Nat.mul_div_cancel' hdvd
  have hcomm : 2 ^ i * (k - 1) = (k - 1) * 2 ^ i := Nat.mul_comm _ _
  unfold convOutLen wnDilation
  omega

lemma wnReceptive (k i T : ℕ) (hk : k % 2 = 1) (hT : 1 ≤ T) :
    wnDilation i * (k - 1) + 1 ≤ T + 2 * wnPadding k i := by
  have hsub : k * 2 ^ i - 2 ^ i = (k - 1) * 2 ^ i := by
    rw [Nat.sub_mul, Nat.one_mul]
  have hdvd : 2 ∣ (k - 1) * 2 ^ i := Dvd.dvd.mul_right (by omega) _
  have h2p : 2 * wnPadding k i = (k - 1) * 2 ^ i := by
    unfold wnPadding
    rw [hsub]
    exact Nat.mul_div_cancel' hdvd
  have hcomm : 2 ^ i * (k - 1) = (k - 1) * 2 ^ i := Nat.mul_comm _ _
  unfold wnDilation
  omega

lemma wnStepShape_fixed {α : Type} (w : WaveNet α) (B T i : ℕ)
    (hk : w.kernel_size % 2 = 1) (hT : 1 ≤ T) (hi : i < w.n_layers) :
    w.stepShape (some (B, 2 * w.n_channels * w.n_layers, T))
      (some (B, w.n_channels, T), some (B, w.n_channels, T)) i =
      (some (B, w.n_channels, T), some (B, w.n_channels, T)) := by
  have hrecep := wnReceptive w.kernel_size i T hk hT
  have hpres := convOutLen_wn T w.kernel_size i hk hT
  have hone := convOutLen_one T hT
  have hoff : i * 2 * w.n_channels + 2 * w.n_channels ≤
      2 * w.n_channels * w.n_layers := by
    have h1 : i * 2 * w.n_channels + 2 * w.n_channels =
        2 * w.n_channels * (i + 1) := by ring
    have h2 : 2 * w.n_channels * (i + 1) ≤ 2 * w.n_channels * w.n_layers :=
      Nat.mul_le_mul (le_refl _) (by omega)
    omega
  have hslice : min (i * 2 * w.n_channels + 2 * w.n_channels)
      (2 * w.n_channels * w.n_layers) - i * 2 * w.n_channels =
      2 * w.n_channels := by omega
  have hminC : min w.n_channels (2 * w.n_channels) = w.n_channels := by omega
  have hsubC : 2 * w.n_channels - w.n_channels = w.n_channels := by omega
  by_cases hlast : i < w.n_layers - 1 <;>
    simp [WaveNet.stepShape, convShape, addShape, fusedShape, sliceHiShape,
      sliceLoShape, sliceRangeShape, hrecep, hpres, hone, hT, hlast, hslice,
      hminC, hsubC]

lemma foldl_fixed_of_mem {β γ : Type} (f : γ → β → γ) (s : γ) :
    ∀ l : List β, (∀ b ∈ l, f s b = s) → l.foldl f s = s := by
  intro l
  induction l with
  | nil => intro _; rfl
  | cons a l ih =>
    intro hl
    rw [List.foldl_cons, hl a (List.mem_cons_self a l)]
    exact ih fun b hb => hl b (List.mem_cons_of_mem a hb)

/-- C7: in `WaveNet`, dilated layer `i` uses dilation `2 ** i` and padding
`(kernel_size * dilation - dilation) / 2`, so (for odd kernel size) every
intermediate convolution preserves the time length, and on an
`(audio, spect)` pair of equal time length `T` the forward pass produces a
tensor with `2 * n_in_channels` channels and time length `T`. -/
theorem c7_wavenet_shape_preserved (w : WaveNet ℝ) (B T : ℕ)
    (hk : w.kernel_size % 2 = 1) (hT : 1 ≤ T) :
    (∀ i, convOutLen T w.kernel_size 1 (wnPadding w.kernel_size i)
      (wnDilation i) = T) ∧
    w.forwardShape (some (B, w.n_in_channels, T)) (some (B, w.n_mel_channels, T)) =
      some (B, 2 * w.n_in_channels, T) := by
  refine ⟨fun i => convOutLen_wn T w.kernel_size i hk hT, ?_⟩
  have hsa0 : convShape w.n_channels 1 1 0 1 w.n_in_channels
      (some (B, w.n_in_channels, T)) = some (B, w.n_channels, T) := by
    simp [convShape, hT, convOutLen_one T hT]
  have hsc : convShape (2 * w.n_channels * w.n_layers) 1 1 0 1 w.n_mel_channels
      (some (B, w.n_mel_channels, T)) = some (B, 2 * w.n_channels * w.n_layers, T) := by
    simp [convShape, hT, convOutLen_one T hT]
  simp only [WaveNet.forwardShape, hsa0, hsc]
  rw [foldl_fixed_of_mem _ _ _
    (fun i hi => wnStepShape_fixed w B T i hk hT (List.mem_range.mp hi))]
  simp [convShape, hT, convOutLen_one T hT]

/-- A concrete one-layer `WaveNet` over `ℝ` with zero weights. -/
def wnEx : WaveNet ℝ :=
  ⟨1, 1, 1, 2, 1, (fun _ _ _ => 0), (fun _ => 0), (fun _ _ _ => 0), (fun _ => 0),
    (fun _ _ _ => 0), (fun _ => 0), (fun _ _ _ _ => 0), (fun _ _ => 0),
    (fun _ _ _ _ => 0), fun _ _ => 0⟩

/-- C7 witness: the concrete one-layer stack on a length-1 input. -/
theorem c7_wavenet_shape_preserved_witness :
    (∀ i, convOutLen 1 wnEx.kernel_size 1 (wnPadding wnEx.kernel_size i)
      (wnDilation i) = 1) ∧
    wnEx.forwardShape (some (1, wnEx.n_in_channels, 1))
        (some (1, wnEx.n_mel_channels, 1)) =
      some (1, 2 * wnEx.n_in_channels, 1) :=
  c7_wavenet_shape_preserved wnEx 1 1 (by decide) (by decide)
